import Mathlib

/-!
Verification of the doctor-data scraping and cleaning core
(`Unified_Sasthyaseba_Scraper.py` field extractors and
`Unified_Data_Cleaner.py` normalization/validation pipeline).

Strings are modelled as lists of characters so that the Python string
operations used by the source (substring containment, lower/upper casing,
strip, split, join, replace) become structurally recursive functions whose
behaviour can be proved.  All definitions are translated from the source
code; where a second definition follows the specification wording instead,
its doc comment says so.
-/

abbrev Str := List Char

/-- The missing-value sentinel used by the scraper. -/
def naStr : Str := "N/A".toList

/-- Whitespace test matching the characters Python `str.strip` and
`str.split` treat as whitespace in this data (space, tab, newline, CR). -/
def isWsChar (c : Char) : Bool :=
  c = ' ' || c = '\t' || c = '\n' || c = '\r'

/-- Model of Python `str.lower` (ASCII case mapping). -/
def lowerCL (s : Str) : Str := s.map Char.toLower

/-- Model of Python `str.upper` (ASCII case mapping). -/
def upperCL (s : Str) : Str := s.map Char.toUpper

/-- Model of Python `str.startswith`. -/
def isPrefCL : Str → Str → Bool
  | [], _ => true
  | _ :: _, [] => false
  | a :: as, b :: bs => a = b && isPrefCL as bs

/-- Model of the Python `in` substring test: `containsSub p s` holds when
`p` occurs contiguously inside `s`. -/
def containsSub (p : Str) : Str → Bool
  | [] => isPrefCL p []
  | c :: cs => isPrefCL p (c :: cs) || containsSub p cs

/-- Model of Python `str.strip`. -/
def trimCL (s : Str) : Str :=
  (((s.dropWhile isWsChar).reverse.dropWhile isWsChar)).reverse

/-- Model of Python `str.replace pat rep` (left-to-right, non-overlapping):
at each position, if the pattern starts there, emit the replacement and
skip the whole pattern; otherwise emit the character and advance by one. -/
def replAll (p r : Str) : Str → Str
  | [] => []
  | a :: as =>
    if p ≠ [] ∧ isPrefCL p (a :: as) = true then
      r ++ replAll p r (as.drop (p.length - 1))
    else
      a :: replAll p r as
termination_by s => s.length
decreasing_by
  all_goals simp only [List.length_cons, List.length_drop]; omega

theorem dropWhile_len_le {α : Type} (q : α → Bool) :
    ∀ l : List α, (l.dropWhile q).length ≤ l.length := by
  intro l
  induction l with
  | nil => simp
  | cons a as ih =>
    by_cases h : q a
    · simp [List.dropWhile_cons, h]; omega
    · simp [List.dropWhile_cons, h]

/-- Model of Python `str.split()` with no separator: the maximal runs of
non-whitespace characters, in order. -/
def wordsCL : Str → List Str
  | [] => []
  | c :: cs =>
    if isWsChar c then wordsCL cs
    else (c :: cs.takeWhile (fun d => !isWsChar d)) ::
      wordsCL (cs.dropWhile (fun d => !isWsChar d))
termination_by s => s.length
decreasing_by
  all_goals simp only [List.length_cons]
  · omega
  · have h := dropWhile_len_le (fun d => !isWsChar d) cs
    omega

/-- Model of the regex extraction `(\d+)`: the first maximal run of decimal
digits, empty when the text has no digit. -/
def firstDigitRun (s : Str) : Str :=
  (s.dropWhile (fun c => !c.isDigit)).takeWhile Char.isDigit

/-- Decimal value of a digit string, as computed by Python `float`/`int`
conversion of a digit run. -/
def parseNatCL (s : Str) : Nat :=
  s.foldl (fun a c => a * 10 + (c.toNat - 48)) 0

/-- Decimal digits of a natural number, the digits part of Python
`str(float(n))` for integral values. -/
def natDigits (n : Nat) : Str :=
  if h : n < 10 then [Char.ofNat (48 + n)]
  else natDigits (n / 10) ++ [Char.ofNat (48 + n % 10)]
termination_by n
decreasing_by
  exact Nat.div_lt_self (by omega) (by omega)

/-! ## Field extractor (`Unified_Sasthyaseba_Scraper.py`) -/

/-- Credential tokens scanned by `extract_all_qualifications`. -/
def qual_keywords : List Str :=
  ["MBBS", "BDS", "FCPS", "MD", "MS", "FRCS", "MRCP", "MCPS",
   "BCS", "MPH", "MPhil", "PhD", "DM", "MCh", "DNB",
   "FRCOG", "MRCOG", "FACS", "DOMS", "DO", "DCH", "DGO", "DA",
   "Diploma", "Fellowship", "FACC", "FRCP", "FICS", "MNAMS"].map String.toList

/-- Exclusion tokens for qualification lines. -/
def qual_skips : List Str :=
  ["Years of Experience", "Experience Overall", "Doctor Reg",
   "BMDC", "Specialist", "Surgeon", "Consultant",
   "Hospital", "Medical Centre", "Clinic", "Get Direction",
   "Book Appointment", "Dhaka", "Bangladesh", "India"].map String.toList

/-- Honorific tokens. -/
def honorifics : List Str := ["Dr.", "Prof.", "Assoc.", "Asst."].map String.toList

/-- Label markers stripped from the front of a qualification line. -/
def qual_labels : List Str :=
  ["Qualifications:", "Degrees:", "Education:"].map String.toList

/-- One step of the label-stripping loop: Python
`if line_clean.startswith(label): line_clean = line_clean.replace(label, '').strip()`. -/
def stripLabel (lb lc : Str) : Str :=
  if isPrefCL lb lc then trimCL (replAll lb [] lc) else lc

/-- The label-stripping loop over the three label markers. -/
def stripLabels (lc : Str) : Str :=
  qual_labels.foldl (fun acc lb => stripLabel lb acc) lc

/-- The cleaned form of one candidate qualification line. -/
def qualLineClean (line : Str) : Str := stripLabels (trimCL line)

/-- One iteration of the qualification-collection loop. -/
def qualAccum (acc : List Str) (line : Str) : List Str :=
  if qual_skips.any (fun sk => containsSub sk line) then acc
  else if qual_keywords.any (fun q => containsSub (upperCL q) (upperCL line)) then
    if honorifics.any (fun t => containsSub t line) && decide (line.length < 50) then acc
    else
      if qualLineClean line ≠ [] ∧ 3 < (qualLineClean line).length ∧
          (qualLineClean line).length < 250 then
        if qualLineClean line ∈ acc then acc else acc ++ [qualLineClean line]
      else acc
  else acc

/-- `extract_all_qualifications` from the scraper: collect qualifying lines
from the first 30 lines, join with ", ", collapse whitespace, then apply
the two comma-tidying replacements. -/
def extract_all_qualifications (lines : List Str) : Str :=
  let fq := (lines.take 30).foldl qualAccum []
  if fq = [] then naStr
  else
    replAll (",,".toList) (",".toList)
      (replAll (" ,".toList) (",".toList)
        (List.intercalate (" ".toList) (wordsCL (List.intercalate (", ".toList) fq))))

/-- Specialty keyword vocabulary of `extract_specialty`. -/
def spec_keywords : List Str :=
  ["Rheumatologist", "Cardiologist", "Neurologist", "Dermatologist",
   "Nephrologist", "Oncologist", "Endocrinologist", "Gastroenterologist",
   "Pulmonologist", "Hematologist", "Radiologist", "Pathologist",
   "Anesthesiologist", "Ophthalmologist", "Neonatologist", "Gynecologist",
   "Urologist", "Immunologist", "Pediatrician", "Obstetrician",
   "Psychiatrist", "Dentist", "ENT", "Specialist", "Medicine Specialist",
   "Chest Specialist", "Respiratory Specialist", "Critical Care Medicine Specialist",
   "Diabetes Specialist", "Family Medicine Specialist", "Surgeon",
   "General Surgeon", "Neurosurgeon", "Cardiovascular Surgeon",
   "Thoracic Surgeon", "Vascular Surgeon", "Plastic Surgeon",
   "Colorectal Surgeon", "Hepatobiliary Surgeon", "Orthopedic Surgeon",
   "Maxillofacial Surgeon", "Dental Surgeon"].map String.toList

/-- Skip tokens of pass 1 of `extract_specialty`. -/
def spec_skips1 : List Str :=
  ["MBBS", "FCPS", "BCS", "MD", "MS", "Years", "Hospital",
   "Dhaka", "Bangladesh", "India", "Book", "Get", "Find", "View", "Doctor"].map String.toList

/-- Credential guard tokens inside pass 1. -/
def spec_quals : List Str := ["MBBS", "FCPS", "MD", "MS"].map String.toList

/-- The inner keyword loop of pass 1: whether this line is returned. -/
def specKwLoop (line : Str) : List Str → Bool
  | [] => false
  | kw :: rest =>
    if lowerCL kw = lowerCL line then true
    else if containsSub (lowerCL kw) (lowerCL line) && decide (line.length < 100) then
      if spec_quals.any (fun q => containsSub q line) then specKwLoop line rest
      else true
    else specKwLoop line rest

/-- Pass 1 of `extract_specialty` over a window of lines. -/
def specMethod1 : List Str → Option Str
  | [] => none
  | l :: ls =>
    if spec_skips1.any (fun sk => containsSub sk l) then specMethod1 ls
    else if specKwLoop l spec_keywords then some l
    else specMethod1 ls

/-- Profession-denoting endings of pass 2. -/
def spec_ends : List Str :=
  ["ologist", "logist", "ist", "ian", "ician",
   "Specialist", "Surgeon", "Consultant"].map String.toList

/-- Skip tokens of pass 2. -/
def spec_skips2 : List Str := ["MBBS", "FCPS", "Years", "Hospital"].map String.toList

/-- Model of Python `str.endswith`. -/
def endsWithCL (sfx s : Str) : Bool := isPrefCL sfx.reverse s.reverse

/-- Model of Python `line[0].isupper()` guarded by a nonempty length test. -/
def headUpper : Str → Bool
  | [] => false
  | c :: _ => c.isUpper

/-- Pass 2 of `extract_specialty` over a window of lines. -/
def specMethod2 : List Str → Option Str
  | [] => none
  | l :: ls =>
    if (decide (5 < l.length) && decide (l.length < 40)) && headUpper l then
      if spec_ends.any (fun sf => endsWithCL sf l) then
        if spec_skips2.any (fun sk => containsSub sk l) then specMethod2 ls
        else some l
      else specMethod2 ls
    else specMethod2 ls

/-- `extract_specialty` from the scraper. -/
def extract_specialty (lines : List Str) : Str :=
  match specMethod1 (lines.take 15) with
  | some l => l
  | none => (specMethod2 (lines.take 20)).getD naStr

/-- Experience marker phrases. -/
def exp_markers : List Str :=
  ["Years of Experience", "Experience Overall", "Year of Experience"].map String.toList

/-- `extract_experience` from the scraper. -/
def extract_experience (lines : List Str) : Str :=
  ((lines.take 30).find? (fun l => exp_markers.any (fun m => containsSub m l))).getD naStr

/-- Institution marker tokens. -/
def hosp_markers : List Str :=
  ["Hospital", "Medical Centre", "Medical Center",
   "Clinic", "Healthcare", "Medical College"].map String.toList

/-- Exclusion phrases for hospital lines. -/
def hosp_excl : List Str :=
  ["Find Hospital", "Get Direction", "Book Appointment", "Availability",
   "Work Experience", "Education", "Locations", "View all", "Info"].map String.toList

/-- Action verbs a hospital line must not start with. -/
def action_verbs : List Str := ["Book", "View", "Find", "Get"].map String.toList

/-- Whether a line is an accepted hospital candidate. -/
def hospCand (l : Str) : Bool :=
  hosp_markers.any (fun k => containsSub k l) &&
  decide (l.length < 200) &&
  !(hosp_excl.any (fun e => containsSub e l)) &&
  decide (5 < l.length) &&
  !(action_verbs.any (fun a => isPrefCL a l))

/-- Exclusion phrases for location lines. -/
def loc_excl : List Str :=
  ["Get Direction", "Book Appointment", "Availability",
   "Find Hospital", "Info"].map String.toList

/-- Locale-signal tokens for location lines. -/
def loc_signals : List Str :=
  [",", "Road", "Rd", "Dhaka", "Bangladesh", "India",
   "No.", "Street", "Avenue", "Chittagong", "Sylhet",
   "Rajshahi", "Khulna", "Barisal", "Mumbai", "Delhi",
   "Bangalore", "Kolkata", "Chennai", "Hyderabad",
   "City", "Building", "Circular"].map String.toList

/-- Whether a line is an accepted location candidate. -/
def locCand (l : Str) : Bool :=
  decide (15 < l.length) &&
  !(loc_excl.any (fun e => containsSub e l)) &&
  loc_signals.any (fun s => containsSub s l)

/-- `extract_hospital_location` from the scraper: the scan stops at the
first accepted hospital line and then looks at the following four lines
for the first location candidate. -/
def extract_hospital_location : List Str → Str × Str
  | [] => (naStr, naStr)
  | l :: ls =>
    if hospCand l then (l, ((ls.take 4).find? locCand).getD naStr)
    else extract_hospital_location ls

/-- Tokens excluding a line from the name fallback. -/
def name_noise : List Str := ["MBBS", "FCPS", "Experience", "Specialist"].map String.toList

/-- The name fallback loop of `scrape_profile`: first of the opening ten
lines that carries an honorific, is short, and has no noise token. -/
def name_fallback (lines : List Str) : Str :=
  ((lines.take 10).find? (fun l =>
    honorifics.any (fun t => containsSub t l) &&
    decide (l.length < 100) &&
    !(name_noise.any (fun x => containsSub x l)))).getD naStr

/-! ## Record model and cleaner (`Unified_Data_Cleaner.py`)

A dataframe cell after `read_csv` holds either a missing value (`NaN`;
note that pandas reads the sentinel string "N/A" back as `NaN`), a string,
or - once `clean_experience` has run - a numeric value.  Numeric cells are
modelled as naturals because the values the pipeline produces are digit
runs; their Python string form is modelled as the decimal digits followed
by ".0". -/

inductive Cell where
  | na : Cell
  | str : Str → Cell
  | num : Nat → Cell
deriving DecidableEq

/-- One dataframe row.  The scraper emits the first seven columns;
`country` is created by `extract_country` and `designation` stands for the
optional designation column that `remove_repeated_values` excludes. -/
structure DocRec where
  profile_url : Cell
  name : Cell
  qualifications : Cell
  specialty : Cell
  experience : Cell
  hospital : Cell
  location : Cell
  country : Cell
  designation : Cell
deriving DecidableEq

/-- Model of pandas `astype(str)` on one cell: `NaN` prints as "nan" and a
float as digits followed by ".0". -/
def cellPyStr : Cell → Str
  | .na => "nan".toList
  | .str s => s
  | .num n => natDigits n ++ ".0".toList

/-- `remove_bmdc_profiles`: drop rows whose qualifications text starts
with "BMDC". -/
def remove_bmdc_profiles (l : List DocRec) : List DocRec :=
  l.filter (fun r => !(isPrefCL ("BMDC".toList) (cellPyStr r.qualifications)))

/-- The row values `remove_repeated_values` compares: all scraped columns
with the designation column excluded (the country column does not exist
yet at that stage of the pipeline). -/
def rowVals (r : DocRec) : List Cell :=
  [r.profile_url, r.name, r.qualifications, r.specialty,
   r.experience, r.hospital, r.location]

/-- The non-missing row values (`dropna`). -/
def nonNAVals (r : DocRec) : List Cell :=
  (rowVals r).filter (fun c => c ≠ Cell.na)

/-- `has_repeated_values`: pandas `len(non_nan) != len(non_nan.unique())`. -/
def has_repeated_values (r : DocRec) : Bool :=
  (nonNAVals r).length ≠ (nonNAVals r).dedup.length

/-- `remove_repeated_values`: drop rows in which some non-missing value
repeats. -/
def remove_repeated_values (l : List DocRec) : List DocRec :=
  l.filter (fun r => !(has_repeated_values r))

/-- The boilerplate phrase stripped from qualifications. -/
def boiler : Str := "Domiciliary Services, Find Doctor, ".toList

/-- `str.replace(boiler, '')` on a qualifications string. -/
def stripBoiler (s : Str) : Str := replAll boiler [] s

/-- `clean_qualifications` on one cell: the pandas `.str` accessor yields
`NaN` on non-string values. -/
def cleanQualCell : Cell → Cell
  | .str s => .str (stripBoiler s)
  | .na => .na
  | .num _ => .na

/-- `clean_qualifications` over the collection. -/
def clean_qualifications (l : List DocRec) : List DocRec :=
  l.map (fun r => { r with qualifications := cleanQualCell r.qualifications })

/-- The string `clean_experience` extracts from: `fillna('1')` then
`astype(str)`. -/
def expCellStr : Cell → Str
  | .na => "1".toList
  | .str s => s
  | .num n => natDigits n ++ ".0".toList

/-- `clean_experience` on one cell: first maximal digit run as a number,
`NaN` when the (non-missing) text has no digit. -/
def cleanExpCell (c : Cell) : Cell :=
  if firstDigitRun (expCellStr c) = [] then .na
  else .num (parseNatCL (firstDigitRun (expCellStr c)))

/-- `clean_experience` over the collection. -/
def clean_experience (l : List DocRec) : List DocRec :=
  l.map (fun r => { r with experience := cleanExpCell r.experience })

/-- The canonical specialty vocabulary, in source order. -/
def standard_specialties : List Str :=
  ["Aesthetic Dermatologist", "Allergy Skin-VD", "Andrologist",
   "Anesthesiologist", "Biochemist", "Cardiac Surgeon", "Cardiologist",
   "Cardiothoracic Surgeon", "Chest Specialist", "Clinical Nutritionist",
   "Colorectal Surgeon", "Cosmetic Dentist", "Cosmetologist",
   "Critical Care Specialist", "Dentist", "Dermatologist", "Dermatosurgeon",
   "Diabetes Specialist", "Diabetologist", "Dietician", "Endocrinologist",
   "Epidemiologist", "Family Medicine Specialist", "Gastroenterologist",
   "General Physician", "General Surgeon", "Geriatrician",
   "Gynecologic Oncologist", "Gynecologist", "Hair Transplant Surgeon",
   "Hematologist", "Hepatobiliary Surgeon", "Hepatologist", "Immunologist",
   "Infertility Specialist", "Internal Medicine", "Internal Medicine Specialist",
   "Interventional Cardiologist", "Laparoscopic Surgeon", "Laparoscopist",
   "Maxillofacial Surgeon", "Medicine Specialist", "Microbiologist",
   "Neonatologist", "Nephrologist", "Neurologist", "Neurosurgeon",
   "Nutritionist", "Obstetrician", "Oncologist", "Ophthalmologist",
   "Orthopedic Surgeon", "Orthopedist", "ENT", "Pain Management Specialist",
   "Pathologist", "Pediatric Cardiologist", "Pediatric Surgeon",
   "Pediatrician", "Physical Medicine", "Physiotherapist", "Plastic Surgeon",
   "Psychiatrist", "Psychologist", "Pulmonologist", "Radiologist",
   "Rheumatologist", "Sexual Medicine Specialist", "Sonologist",
   "Spine Surgeon", "Sports Physician", "Surgeon", "Thoracic Surgeon"].map String.toList

/-- The scan of `clean_specialty` over the vocabulary: first entry whose
lowercase form occurs inside the lowercase text. -/
def canonMatch (t : Str) : List Str → Option Str
  | [] => none
  | e :: rest =>
    if containsSub (lowerCL e) (lowerCL t) then some e else canonMatch t rest

/-- `clean_specialty` from `standardize_specialties`. -/
def clean_specialty (t : Str) : Str :=
  if t = naStr then t else (canonMatch t standard_specialties).getD t

/-- `standardize_specialties` on one cell: non-strings pass through. -/
def cleanSpecCell : Cell → Cell
  | .str s => .str (clean_specialty s)
  | c => c

/-- `standardize_specialties` over the collection. -/
def standardize_specialties (l : List DocRec) : List DocRec :=
  l.map (fun r => { r with specialty := cleanSpecCell r.specialty })

/-- The country vocabulary, in source order. -/
def country_names : List Str :=
  ["Bangladesh", "India", "Pakistan", "Sri Lanka", "Nepal",
   "United States", "USA", "Canada", "UK", "United Kingdom",
   "Australia", "Singapore", "Malaysia", "Thailand"].map String.toList

/-- `find_country`: first country whose lowercase name occurs inside the
lowercase location text. -/
def find_country (loc : Str) : Option Str :=
  country_names.find? (fun c => containsSub (lowerCL c) (lowerCL loc))

/-- `extract_country` on one cell of the location column. -/
def countryCell : Cell → Cell
  | .str s =>
    match find_country s with
    | some c => .str c
    | none => .na
  | _ => .na

/-- `extract_country` over the collection: the country column is rebuilt
from the location column. -/
def extract_country (l : List DocRec) : List DocRec :=
  l.map (fun r => { r with country := countryCell r.location })

/-- `filter_countries`: keep rows whose country is in the allow list. -/
def filter_countries (cs : List Str) (l : List DocRec) : List DocRec :=
  l.filter (fun r => cs.any (fun c => r.country = Cell.str c))

/-- The keep-first key deduplication loop behind pandas
`drop_duplicates(subset=['profile_url'], keep='first')`. -/
def dedupByKey (seen : List Cell) : List DocRec → List DocRec
  | [] => []
  | r :: rs =>
    if r.profile_url ∈ seen then dedupByKey seen rs
    else r :: dedupByKey (r.profile_url :: seen) rs

/-- `remove_duplicates` from the cleaner. -/
def remove_duplicates (l : List DocRec) : List DocRec := dedupByKey [] l

/-- `drop_missing_critical`: three successive `dropna` passes on the
hospital, location and specialty columns. -/
def drop_missing_critical (l : List DocRec) : List DocRec :=
  ((l.filter (fun r => r.hospital ≠ Cell.na)).filter
    (fun r => r.location ≠ Cell.na)).filter (fun r => r.specialty ≠ Cell.na)

/-- `run_full_cleaning`: the full pipeline in the order of the source. -/
def run_full_cleaning (flag : Bool) (l : List DocRec) : List DocRec :=
  let s1 := remove_bmdc_profiles l
  let s2 := remove_repeated_values s1
  let s3 := clean_qualifications s2
  let s4 := clean_experience s3
  let s5 := standardize_specialties s4
  let s6 := extract_country s5
  let s7 := if flag then filter_countries ["Bangladesh".toList, "India".toList] s6 else s6
  let s8 := remove_duplicates s7
  drop_missing_critical s8

/-- The whole normalization stage on one record: qualifications strip,
experience conversion, specialty canonicalization, country derivation. -/
def normalizeRecord (r : DocRec) : DocRec :=
  { r with
    qualifications := cleanQualCell r.qualifications,
    experience := cleanExpCell r.experience,
    specialty := cleanSpecCell r.specialty,
    country := countryCell r.location }

/-! ## Basic lemmas about the string model -/

theorem isPrefCL_iff (p : Str) : ∀ s : Str, isPrefCL p s = true ↔ ∃ t, s = p ++ t := by
  induction p with
  | nil =>
    intro s
    simp [isPrefCL]
  | cons a as ih =>
    intro s
    cases s with
    | nil =>
      simp [isPrefCL]
    | cons b bs =>
      simp only [isPrefCL, Bool.and_eq_true, decide_eq_true_eq, ih bs, List.cons_append,
        List.cons.injEq]
      constructor
      · rintro ⟨rfl, t, rfl⟩
        exact ⟨t, rfl, rfl⟩
      · rintro ⟨t, rfl, rfl⟩
        exact ⟨rfl, t, rfl⟩

theorem containsSub_iff (p : Str) : ∀ s : Str, containsSub p s = true ↔ ∃ u v, s = u ++ p ++ v := by
  intro s
  induction s with
  | nil =>
    simp only [containsSub, isPrefCL_iff]
    constructor
    · rintro ⟨t, ht⟩
      exact ⟨[], t, by simpa using ht⟩
    · rintro ⟨u, v, huv⟩
      have hu : u = [] := by
        cases u with
        | nil => rfl
        | cons x xs => simp at huv
      subst hu
      exact ⟨v, by simpa using huv⟩
  | cons c cs ih =>
    simp only [containsSub, Bool.or_eq_true, isPrefCL_iff, ih]
    constructor
    · rintro (⟨t, ht⟩ | ⟨u, v, huv⟩)
      · exact ⟨[], t, by simpa using ht⟩
      · exact ⟨c :: u, v, by simp [huv]⟩
    · rintro ⟨u, v, huv⟩
      cases u with
      | nil =>
        exact Or.inl ⟨v, by simpa using huv⟩
      | cons x xs =>
        simp only [List.cons_append, List.cons.injEq] at huv
        exact Or.inr ⟨xs, v, by simp [huv.2]⟩

theorem isPrefCL_self (p : Str) : isPrefCL p p = true := by
  rw [isPrefCL_iff]
  exact ⟨[], by simp⟩

theorem containsSub_self (p : Str) : containsSub p p = true := by
  rw [containsSub_iff]
  exact ⟨[], [], by simp⟩

theorem containsSub_trans {a b c : Str} (h1 : containsSub a b = true)
    (h2 : containsSub b c = true) : containsSub a c = true := by
  rw [containsSub_iff] at h1 h2 ⊢
  obtain ⟨u, v, rfl⟩ := h1
  obtain ⟨x, y, rfl⟩ := h2
  exact ⟨x ++ u, v ++ y, by simp⟩

theorem containsSub_of_ne_false {p s : Str} (h : containsSub p s = false) :
    ¬ ∃ u v, s = u ++ p ++ v := by
  intro hex
  rw [← containsSub_iff] at hex
  rw [h] at hex
  exact Bool.false_ne_true hex

/-! ## Lemmas about trimming -/

theorem dropWhile_head_false (q : Char → Bool) :
    ∀ (l : Str) (c : Char), (l.dropWhile q).head? = some c → q c = false := by
  intro l
  induction l with
  | nil => intro c h; simp at h
  | cons a as ih =>
    intro c h
    by_cases hq : q a
    · rw [List.dropWhile_cons_of_pos hq] at h
      exact ih c h
    · rw [List.dropWhile_cons_of_neg hq] at h
      simp only [List.head?_cons, Option.some.injEq] at h
      subst h
      exact Bool.of_not_eq_true hq

theorem dropWhile_eq_of_head_false {q : Char → Bool} {l : Str} {c : Char}
    (hl : l.head? = some c) (hc : q c = false) : l.dropWhile q = l := by
  cases l with
  | nil => simp at hl
  | cons a as =>
    simp only [List.head?_cons, Option.some.injEq] at hl
    subst hl
    exact List.dropWhile_cons_of_neg (by simp [hc])

theorem dropWhile_exists_pre (q : Char → Bool) :
    ∀ l : Str, ∃ u, l = u ++ l.dropWhile q := by
  intro l
  induction l with
  | nil => exact ⟨[], rfl⟩
  | cons a as ih =>
    by_cases hq : q a
    · obtain ⟨u, hu⟩ := ih
      exact ⟨a :: u, by rw [List.dropWhile_cons_of_pos hq]; simpa using hu⟩
    · exact ⟨[], by rw [List.dropWhile_cons_of_neg hq]; simp⟩

/-- A nonempty trimmed-and-nonempty string is exactly one with non-space
first and last characters. -/
def noWsEnds (s : Str) : Prop :=
  s ≠ [] ∧ (∀ c, s.head? = some c → isWsChar c = false) ∧
    (∀ c, s.getLast? = some c → isWsChar c = false)

theorem getLast?_append_right (x y : Str) (hy : y ≠ []) :
    (x ++ y).getLast? = y.getLast? :=
  List.getLast?_append_of_ne_nil x hy

theorem trim_noWsEnds {s : Str} (h : trimCL s ≠ []) : noWsEnds (trimCL s) := by
  have hune : ((s.dropWhile isWsChar).reverse.dropWhile isWsChar) ≠ [] := by
    intro he
    apply h
    show ((s.dropWhile isWsChar).reverse.dropWhile isWsChar).reverse = []
    rw [he]
    rfl
  refine ⟨h, ?_, ?_⟩
  · intro c hc
    have hc2 : ((s.dropWhile isWsChar).reverse.dropWhile isWsChar).reverse.head? = some c := hc
    rw [List.head?_reverse] at hc2
    obtain ⟨w, hw⟩ := dropWhile_exists_pre isWsChar (s.dropWhile isWsChar).reverse
    have hlast : (s.dropWhile isWsChar).reverse.getLast? = some c := by
      rw [hw, getLast?_append_right w _ hune]
      exact hc2
    rw [List.getLast?_reverse] at hlast
    exact dropWhile_head_false isWsChar s c hlast
  · intro c hc
    have hc2 : ((s.dropWhile isWsChar).reverse.dropWhile isWsChar).reverse.getLast? = some c := hc
    rw [List.getLast?_reverse] at hc2
    exact dropWhile_head_false isWsChar (s.dropWhile isWsChar).reverse c hc2

theorem trim_eq_of_noWsEnds {s : Str} (h : noWsEnds s) : trimCL s = s := by
  obtain ⟨hne, hh, hl⟩ := h
  obtain ⟨c, hc⟩ := Option.ne_none_iff_exists.mp (by simpa using hne : s.head? ≠ none)
  unfold trimCL
  rw [dropWhile_eq_of_head_false hc.symm (hh c hc.symm)]
  obtain ⟨d, hd⟩ := Option.ne_none_iff_exists.mp
    (by simpa [List.getLast?_eq_none_iff] using hne : s.getLast? ≠ none)
  have hrev : s.reverse.head? = some d := by rw [List.head?_reverse]; exact hd.symm
  rw [dropWhile_eq_of_head_false hrev (hl d hd.symm)]
  exact s.reverse_reverse

theorem trimCL_idem (s : Str) : trimCL (trimCL s) = trimCL s := by
  by_cases h : trimCL s = []
  · rw [h]; rfl
  · exact trim_eq_of_noWsEnds (trim_noWsEnds h)

theorem noWsEnds_of_trim_fix {s : Str} (hfix : trimCL s = s) (hne : s ≠ []) :
    noWsEnds s := by
  have := @trim_noWsEnds s (by rw [hfix]; exact hne)
  rwa [hfix] at this

/-! ## Lemmas about `replAll` -/

theorem replAll_nil (p r : Str) : replAll p r [] = [] := by
  simp [replAll]

theorem replAll_ne_nil {p r : Str} (hr : r ≠ []) :
    ∀ {s : Str}, s ≠ [] → replAll p r s ≠ [] := by
  intro s hs
  cases s with
  | nil => exact absurd rfl hs
  | cons a as =>
    unfold replAll
    split
    · simp [hr]
    · simp

theorem replAll_head {p r : Str} (hr : r ≠ [])
    (hrh : ∀ c, r.head? = some c → isWsChar c = false) :
    ∀ {s : Str}, s ≠ [] → (∀ c, s.head? = some c → isWsChar c = false) →
      ∀ c, (replAll p r s).head? = some c → isWsChar c = false := by
  intro s hs hsh c hc
  cases s with
  | nil => exact absurd rfl hs
  | cons a as =>
    unfold replAll at hc
    split at hc
    · cases r with
      | nil => exact absurd rfl hr
      | cons x xs =>
        simp only [List.cons_append, List.head?_cons, Option.some.injEq] at hc
        rw [← hc]
        exact hrh x rfl
    · simp only [List.head?_cons, Option.some.injEq] at hc
      rw [← hc]
      exact hsh a rfl

theorem replAll_last_aux {p r : Str} (hr : r ≠ [])
    (hrl : ∀ c, r.getLast? = some c → isWsChar c = false) :
    ∀ (n : Nat) (s : Str), s.length ≤ n → s ≠ [] →
      (∀ c, s.getLast? = some c → isWsChar c = false) →
      ∀ c, (replAll p r s).getLast? = some c → isWsChar c = false := by
  intro n
  induction n with
  | zero =>
    intro s hle hs
    cases s with
    | nil => exact absurd rfl hs
    | cons a as => simp at hle
  | succ n ih =>
    intro s hle hs hsl c hc
    cases s with
    | nil => exact absurd rfl hs
    | cons a as =>
      have hasn : as.length ≤ n := by
        simp only [List.length_cons] at hle
        omega
      unfold replAll at hc
      split at hc
      · by_cases hrec : replAll p r (as.drop (p.length - 1)) = []
        · rw [hrec, List.append_nil] at hc
          exact hrl c hc
        · rw [getLast?_append_right _ _ hrec] at hc
          have hdne : as.drop (p.length - 1) ≠ [] := by
            intro he
            rw [he, replAll_nil] at hrec
            exact hrec rfl
          have hdl : ∀ d, (as.drop (p.length - 1)).getLast? = some d → isWsChar d = false := by
            intro d hd
            apply hsl
            have h1 : a :: as = (a :: as.take (p.length - 1)) ++ as.drop (p.length - 1) := by
              simp [List.take_append_drop]
            rw [h1, getLast?_append_right _ _ hdne]
            exact hd
          have hlen : (as.drop (p.length - 1)).length ≤ n := by
            simp only [List.length_drop]
            omega
          exact ih _ hlen hdne hdl c hc
      · by_cases hrec : replAll p r as = []
        · have hase : as = [] := by
            by_contra hne
            exact replAll_ne_nil hr hne hrec
          rw [hrec] at hc
          apply hsl
          rw [hase]
          exact hc
        · have h2 : (a :: replAll p r as).getLast? = (replAll p r as).getLast? :=
            getLast?_append_right [a] _ hrec
          rw [h2] at hc
          have hane : as ≠ [] := by
            intro he
            rw [he, replAll_nil] at hrec
            exact hrec rfl
          have hal : ∀ d, as.getLast? = some d → isWsChar d = false := by
            intro d hd
            apply hsl
            show ([a] ++ as).getLast? = some d
            rw [getLast?_append_right [a] _ hane]
            exact hd
          exact ih as hasn hane hal c hc

theorem replAll_last {p r : Str} (hr : r ≠ [])
    (hrl : ∀ c, r.getLast? = some c → isWsChar c = false)
    {s : Str} (hs : s ≠ [])
    (hsl : ∀ c, s.getLast? = some c → isWsChar c = false) :
    ∀ c, (replAll p r s).getLast? = some c → isWsChar c = false :=
  replAll_last_aux hr hrl s.length s (Nat.le_refl _) hs hsl

theorem replAll_id_of_no_occur {p r : Str} :
    ∀ {s : Str}, containsSub p s = false → replAll p r s = s := by
  intro s
  induction s with
  | nil => intro h; exact replAll_nil p r
  | cons a as ih =>
    intro h
    unfold containsSub at h
    rw [Bool.or_eq_false_iff] at h
    unfold replAll
    rw [if_neg]
    · rw [ih h.2]
    · rintro ⟨hp, hpref⟩
      rw [h.1] at hpref
      exact Bool.false_ne_true hpref

/-! ## Lemmas about words and joining -/

theorem head?_mem {α : Type} {l : List α} {c : α} (h : l.head? = some c) : c ∈ l := by
  cases l with
  | nil => simp at h
  | cons a as =>
    simp only [List.head?_cons, Option.some.injEq] at h
    rw [← h]
    exact List.mem_cons_self a as

theorem getLast?_mem {α : Type} {l : List α} {c : α} (h : l.getLast? = some c) : c ∈ l := by
  have : l.reverse.head? = some c := by rw [List.head?_reverse]; exact h
  have := head?_mem this
  exact List.mem_reverse.mp this

theorem mem_takeWhile_pred {α : Type} (q : α → Bool) :
    ∀ (l : List α) (x : α), x ∈ l.takeWhile q → q x = true := by
  intro l
  induction l with
  | nil => intro x h; simp at h
  | cons a as ih =>
    intro x h
    by_cases hq : q a
    · rw [List.takeWhile_cons_of_pos hq] at h
      rcases List.mem_cons.mp h with rfl | h2
      · exact hq
      · exact ih x h2
    · rw [List.takeWhile_cons_of_neg hq] at h
      simp at h

/-- Every word produced by `wordsCL` is nonempty and all of its characters
are non-whitespace. -/
theorem wordsCL_good_aux :
    ∀ (n : Nat) (s : Str), s.length ≤ n →
      ∀ w ∈ wordsCL s, w ≠ [] ∧ ∀ c ∈ w, isWsChar c = false := by
  intro n
  induction n with
  | zero =>
    intro s hle w hw
    cases s with
    | nil => simp [wordsCL] at hw
    | cons a as => simp at hle
  | succ n ih =>
    intro s hle w hw
    cases s with
    | nil => simp [wordsCL] at hw
    | cons a as =>
      have hasn : as.length ≤ n := by
        simp only [List.length_cons] at hle
        omega
      unfold wordsCL at hw
      by_cases ha : isWsChar a
      · rw [if_pos ha] at hw
        exact ih as hasn w hw
      · rw [if_neg ha] at hw
        rcases List.mem_cons.mp hw with rfl | hw2
        · refine ⟨by simp, ?_⟩
          intro c hc
          rcases List.mem_cons.mp hc with rfl | hc2
          · exact Bool.of_not_eq_true ha
          · have := mem_takeWhile_pred (fun d => !isWsChar d) as c hc2
            simpa using this
        · have hlen : (as.dropWhile (fun d => !isWsChar d)).length ≤ n :=
            Nat.le_trans (dropWhile_len_le _ as) hasn
          exact ih _ hlen w hw2

theorem wordsCL_good (s : Str) :
    ∀ w ∈ wordsCL s, w ≠ [] ∧ ∀ c ∈ w, isWsChar c = false :=
  wordsCL_good_aux s.length s (Nat.le_refl _)

theorem wordsCL_ne_nil {s : Str} {c : Char} (hh : s.head? = some c)
    (hc : isWsChar c = false) : wordsCL s ≠ [] := by
  cases s with
  | nil => simp at hh
  | cons a as =>
    simp only [List.head?_cons, Option.some.injEq] at hh
    subst hh
    unfold wordsCL
    rw [if_neg (by simp [hc])]
    simp

theorem intercalate_single (sep : Str) (x : Str) : List.intercalate sep [x] = x := by
  simp [List.intercalate]

theorem intercalate_cons2 (sep x y : Str) (rest : List Str) :
    List.intercalate sep (x :: y :: rest) = x ++ sep ++ List.intercalate sep (y :: rest) := by
  simp [List.intercalate, List.intersperse]

theorem intercalate_head {sep : Str} {x : Str} {rest : List Str} (hx : x ≠ []) :
    (List.intercalate sep (x :: rest)).head? = x.head? := by
  cases rest with
  | nil => rw [intercalate_single]
  | cons y ys =>
    rw [intercalate_cons2]
    cases x with
    | nil => exact absurd rfl hx
    | cons a as => simp

/-- Joining good words with a single space yields a nonempty string with
non-whitespace first and last characters. -/
theorem interSpace_noWsEnds :
    ∀ ws : List Str, ws ≠ [] →
      (∀ w ∈ ws, w ≠ [] ∧ ∀ c ∈ w, isWsChar c = false) →
      noWsEnds (List.intercalate ([' ']) ws) := by
  intro ws
  induction ws with
  | nil => intro h; exact absurd rfl h
  | cons x rest ih =>
    intro _ hgood
    have hx := hgood x (List.mem_cons_self x rest)
    cases rest with
    | nil =>
      rw [intercalate_single]
      refine ⟨hx.1, ?_, ?_⟩
      · intro c hc
        exact hx.2 c (head?_mem hc)
      · intro c hc
        exact hx.2 c (getLast?_mem hc)
    | cons y ys =>
      have hrest : noWsEnds (List.intercalate ([' ']) (y :: ys)) := by
        apply ih (by simp)
        intro w hw
        exact hgood w (List.mem_cons_of_mem x hw)
      rw [intercalate_cons2]
      obtain ⟨hrne, hrh, hrl⟩ := hrest
      refine ⟨by simp [hx.1], ?_, ?_⟩
      · intro c hc
        rw [List.append_assoc] at hc
        cases hxe : x with
        | nil => exact absurd hxe hx.1
        | cons a as =>
          rw [hxe] at hc
          simp only [List.cons_append, List.head?_cons, Option.some.injEq] at hc
          rw [← hc]
          exact hx.2 a (by rw [hxe]; exact List.mem_cons_self a as)
      · intro c hc
        rw [List.append_assoc, getLast?_append_right _ _ (by simp [hrne])] at hc
        rw [getLast?_append_right _ _ hrne] at hc
        exact hrl c hc

/-! ## Shape of the collected qualification lines -/

theorem stripLabels_trim_fix {lc : Str} (h : trimCL lc = lc) :
    trimCL (stripLabels lc) = stripLabels lc := by
  unfold stripLabels
  generalize qual_labels = ls
  induction ls generalizing lc with
  | nil => simpa using h
  | cons lb rest ih =>
    rw [List.foldl_cons]
    apply ih
    unfold stripLabel
    split
    · exact trimCL_idem _
    · exact h

theorem qualLineClean_trim_fix (line : Str) :
    trimCL (qualLineClean line) = qualLineClean line :=
  stripLabels_trim_fix (trimCL_idem line)

/-- Invariant of the collection fold: every collected line is trimmed and
has length strictly between 3 and 250. -/
theorem foldl_qualAccum_good :
    ∀ (ls : List Str) (acc : List Str),
      (∀ w ∈ acc, 3 < w.length ∧ w.length < 250 ∧ trimCL w = w) →
      ∀ w ∈ ls.foldl qualAccum acc, 3 < w.length ∧ w.length < 250 ∧ trimCL w = w := by
  intro ls
  induction ls with
  | nil => intro acc hacc w hw; exact hacc w hw
  | cons line rest ih =>
    intro acc hacc w hw
    rw [List.foldl_cons] at hw
    refine ih (qualAccum acc line) ?_ w hw
    intro v hv
    unfold qualAccum at hv
    split at hv
    · exact hacc v hv
    · split at hv
      · split at hv
        · exact hacc v hv
        · split at hv
          · split at hv
            · exact hacc v hv
            · rcases List.mem_append.mp hv with h1 | h2
              · exact hacc v h1
              · have hveq : v = qualLineClean line := by simpa using h2
                subst hveq
                rename_i hcond _
                exact ⟨hcond.2.1, hcond.2.2, qualLineClean_trim_fix line⟩
          · exact hacc v hv
      · exact hacc v hv

/-- The joined, collapsed, comma-tidied qualification string is nonempty
with non-whitespace endpoints. -/
theorem quals_result_noWsEnds {fq : List Str} (hne : fq ≠ [])
    (hgood : ∀ w ∈ fq, 3 < w.length ∧ w.length < 250 ∧ trimCL w = w) :
    noWsEnds (replAll (",,".toList) (",".toList)
      (replAll (" ,".toList) (",".toList)
        (List.intercalate (" ".toList) (wordsCL (List.intercalate (", ".toList) fq))))) := by
  obtain ⟨w0, rest, rfl⟩ : ∃ w0 rest, fq = w0 :: rest := by
    cases fq with
    | nil => exact absurd rfl hne
    | cons a b => exact ⟨a, b, rfl⟩
  have hw0 := hgood w0 (List.mem_cons_self w0 rest)
  have hw0ends : noWsEnds w0 :=
    noWsEnds_of_trim_fix hw0.2.2 (by intro h; rw [h] at hw0; simp at hw0)
  obtain ⟨c0, hc0⟩ : ∃ c0, w0.head? = some c0 := by
    cases w0 with
    | nil => exact absurd rfl hw0ends.1
    | cons a as => exact ⟨a, rfl⟩
  have hjh : (List.intercalate (", ".toList) (w0 :: rest)).head? = some c0 := by
    rw [intercalate_head hw0ends.1]
    exact hc0
  have hc0ws : isWsChar c0 = false := hw0ends.2.1 c0 hc0
  have hwords : wordsCL (List.intercalate (", ".toList) (w0 :: rest)) ≠ [] :=
    wordsCL_ne_nil hjh hc0ws
  have hcol : noWsEnds (List.intercalate (" ".toList)
      (wordsCL (List.intercalate (", ".toList) (w0 :: rest)))) := by
    have := interSpace_noWsEnds (wordsCL (List.intercalate (", ".toList) (w0 :: rest)))
      hwords (wordsCL_good _)
    simpa using this
  obtain ⟨h1ne, h1h, h1l⟩ := hcol
  have hrep : (",".toList : Str) ≠ [] := by simp
  have hrh : ∀ c, (",".toList : Str).head? = some c → isWsChar c = false := by
    intro c hc
    simp only [String.toList] at hc
    simp at hc
    rw [← hc]
    decide
  have hrl : ∀ c, (",".toList : Str).getLast? = some c → isWsChar c = false := by
    intro c hc
    simp at hc
    rw [← hc]
    decide
  have hstep1ne : replAll (" ,".toList) (",".toList)
      (List.intercalate (" ".toList) (wordsCL (List.intercalate (", ".toList) (w0 :: rest)))) ≠ [] :=
    replAll_ne_nil hrep h1ne
  have hstep1h := @replAll_head (" ,".toList) (",".toList) hrep hrh _ h1ne h1h
  have hstep1l := @replAll_last (" ,".toList) (",".toList) hrep hrl _ h1ne h1l
  refine ⟨replAll_ne_nil hrep hstep1ne, ?_, ?_⟩
  · exact @replAll_head (",,".toList) (",".toList) hrep hrh _ hstep1ne hstep1h
  · exact @replAll_last (",,".toList) (",".toList) hrep hrl _ hstep1ne hstep1l

/-! ## Membership facts for the line-scanning extractors -/

theorem specMethod1_mem : ∀ {ls : List Str} {l : Str}, specMethod1 ls = some l → l ∈ ls := by
  intro ls
  induction ls with
  | nil => intro l h; simp [specMethod1] at h
  | cons a as ih =>
    intro l h
    unfold specMethod1 at h
    split at h
    · exact List.mem_cons_of_mem a (ih h)
    · split at h
      · simp only [Option.some.injEq] at h
        rw [← h]
        exact List.mem_cons_self a as
      · exact List.mem_cons_of_mem a (ih h)

theorem specMethod2_mem : ∀ {ls : List Str} {l : Str}, specMethod2 ls = some l → l ∈ ls := by
  intro ls
  induction ls with
  | nil => intro l h; simp [specMethod2] at h
  | cons a as ih =>
    intro l h
    unfold specMethod2 at h
    split at h
    · split at h
      · split at h
        · exact List.mem_cons_of_mem a (ih h)
        · simp only [Option.some.injEq] at h
          rw [← h]
          exact List.mem_cons_self a as
      · exact List.mem_cons_of_mem a (ih h)
    · exact List.mem_cons_of_mem a (ih h)

theorem mem_of_mem_take {α : Type} {l : List α} {n : Nat} {x : α}
    (h : x ∈ l.take n) : x ∈ l :=
  (List.take_sublist n l).subset h

theorem extract_specialty_cases (lines : List Str) :
    extract_specialty lines = naStr ∨ extract_specialty lines ∈ lines := by
  unfold extract_specialty
  cases h1 : specMethod1 (lines.take 15) with
  | some l => exact Or.inr (mem_of_mem_take (specMethod1_mem h1))
  | none =>
    cases h2 : specMethod2 (lines.take 20) with
    | some l => exact Or.inr (mem_of_mem_take (specMethod2_mem h2))
    | none => exact Or.inl rfl

theorem extract_experience_cases (lines : List Str) :
    extract_experience lines = naStr ∨ extract_experience lines ∈ lines := by
  unfold extract_experience
  cases h : (lines.take 30).find?
      (fun l => exp_markers.any (fun m => containsSub m l)) with
  | some l => exact Or.inr (mem_of_mem_take (List.mem_of_find?_eq_some h))
  | none => exact Or.inl rfl

theorem name_fallback_cases (lines : List Str) :
    name_fallback lines = naStr ∨ name_fallback lines ∈ lines := by
  unfold name_fallback
  cases h : (lines.take 10).find? (fun l =>
      honorifics.any (fun t => containsSub t l) &&
      decide (l.length < 100) &&
      !(name_noise.any (fun x => containsSub x l))) with
  | some l => exact Or.inr (mem_of_mem_take (List.mem_of_find?_eq_some h))
  | none => exact Or.inl rfl

theorem extract_hospital_location_cases :
    ∀ lines : List Str,
      ((extract_hospital_location lines).1 = naStr ∨
        (extract_hospital_location lines).1 ∈ lines) ∧
      ((extract_hospital_location lines).2 = naStr ∨
        (extract_hospital_location lines).2 ∈ lines) := by
  intro lines
  induction lines with
  | nil => exact ⟨Or.inl rfl, Or.inl rfl⟩
  | cons l ls ih =>
    unfold extract_hospital_location
    split
    · constructor
      · exact Or.inr (List.mem_cons_self l ls)
      · cases h : (ls.take 4).find? locCand with
        | some x =>
          right
          show x ∈ l :: ls
          exact List.mem_cons_of_mem l (mem_of_mem_take (List.mem_of_find?_eq_some h))
        | none =>
          left
          rfl
    · exact ⟨ih.1.imp id (List.mem_cons_of_mem l), ih.2.imp id (List.mem_cons_of_mem l)⟩

/-- A well-formed extractor output: either the sentinel or a nonempty
trimmed string. -/
def goodStr (r : Str) : Prop := r = naStr ∨ (r ≠ [] ∧ trimCL r = r)

theorem goodStr_of_mem {lines : List Str}
    (hlines : ∀ l ∈ lines, l ≠ [] ∧ trimCL l = l) {r : Str}
    (h : r = naStr ∨ r ∈ lines) : goodStr r := by
  rcases h with h | h
  · exact Or.inl h
  · exact Or.inr (hlines r h)

/-- Claim C1: on any line sequence of nonempty, whitespace-trimmed strings,
every field-extraction function (name fallback, qualifications, specialty,
experience, hospital/location) is total and returns, per field, either the
missing sentinel "N/A" or a nonempty trimmed string; each field is computed
by its own function, so a failed match leaves only that field at the
sentinel. -/
theorem extract_fields_safe (lines : List Str)
    (hlines : ∀ l ∈ lines, l ≠ [] ∧ trimCL l = l) :
    goodStr (name_fallback lines) ∧
    goodStr (extract_all_qualifications lines) ∧
    goodStr (extract_specialty lines) ∧
    goodStr (extract_experience lines) ∧
    goodStr (extract_hospital_location lines).1 ∧
    goodStr (extract_hospital_location lines).2 := by
  refine ⟨goodStr_of_mem hlines (name_fallback_cases lines), ?_,
    goodStr_of_mem hlines (extract_specialty_cases lines),
    goodStr_of_mem hlines (extract_experience_cases lines),
    goodStr_of_mem hlines (extract_hospital_location_cases lines).1,
    goodStr_of_mem hlines (extract_hospital_location_cases lines).2⟩
  show goodStr (if (lines.take 30).foldl qualAccum [] = [] then naStr else
    replAll (",,".toList) (",".toList)
      (replAll (" ,".toList) (",".toList)
        (List.intercalate (" ".toList)
          (wordsCL (List.intercalate (", ".toList) ((lines.take 30).foldl qualAccum []))))))
  by_cases hfq : (lines.take 30).foldl qualAccum [] = []
  · rw [if_pos hfq]
    exact Or.inl rfl
  · rw [if_neg hfq]
    have hgood := foldl_qualAccum_good (lines.take 30) [] (by intro w hw; simp at hw)
    have hends := quals_result_noWsEnds hfq hgood
    exact Or.inr ⟨hends.1, trim_eq_of_noWsEnds hends⟩

/-- Witness for claim C1: the guarantee evaluated on a concrete profile
page text. -/
theorem extract_fields_safe_witness :
    goodStr (name_fallback
      ["Dr. Rahim".toList, "MBBS, FCPS (Medicine)".toList, "Cardiologist".toList,
       "12 Years of Experience Overall".toList, "Square Hospital Ltd".toList,
       "Get Direction".toList, "123 Panthapath Road, Dhaka".toList]) ∧
    goodStr (extract_all_qualifications
      ["Dr. Rahim".toList, "MBBS, FCPS (Medicine)".toList, "Cardiologist".toList,
       "12 Years of Experience Overall".toList, "Square Hospital Ltd".toList,
       "Get Direction".toList, "123 Panthapath Road, Dhaka".toList]) ∧
    goodStr (extract_specialty
      ["Dr. Rahim".toList, "MBBS, FCPS (Medicine)".toList, "Cardiologist".toList,
       "12 Years of Experience Overall".toList, "Square Hospital Ltd".toList,
       "Get Direction".toList, "123 Panthapath Road, Dhaka".toList]) ∧
    goodStr (extract_experience
      ["Dr. Rahim".toList, "MBBS, FCPS (Medicine)".toList, "Cardiologist".toList,
       "12 Years of Experience Overall".toList, "Square Hospital Ltd".toList,
       "Get Direction".toList, "123 Panthapath Road, Dhaka".toList]) ∧
    goodStr (extract_hospital_location
      ["Dr. Rahim".toList, "MBBS, FCPS (Medicine)".toList, "Cardiologist".toList,
       "12 Years of Experience Overall".toList, "Square Hospital Ltd".toList,
       "Get Direction".toList, "123 Panthapath Road, Dhaka".toList]).1 ∧
    goodStr (extract_hospital_location
      ["Dr. Rahim".toList, "MBBS, FCPS (Medicine)".toList, "Cardiologist".toList,
       "12 Years of Experience Overall".toList, "Square Hospital Ltd".toList,
       "Get Direction".toList, "123 Panthapath Road, Dhaka".toList]).2 :=
  extract_fields_safe _ (by decide)

/-! ## Deduplication and filter lemmas -/

theorem dedupByKey_keys_nodup :
    ∀ (l : List DocRec) (seen : List Cell),
      ((dedupByKey seen l).map (·.profile_url)).Nodup ∧
      ∀ c ∈ (dedupByKey seen l).map (·.profile_url), c ∉ seen := by
  intro l
  induction l with
  | nil =>
    intro seen
    constructor
    · simp [dedupByKey]
    · intro c hc
      simp [dedupByKey] at hc
  | cons r rs ih =>
    intro seen
    unfold dedupByKey
    by_cases hin : r.profile_url ∈ seen
    · rw [if_pos hin]
      exact ih seen
    · rw [if_neg hin]
      obtain ⟨ihn, ihs⟩ := ih (r.profile_url :: seen)
      constructor
      · rw [List.map_cons, List.nodup_cons]
        refine ⟨?_, ihn⟩
        intro hmem
        exact ihs _ hmem (List.mem_cons_self _ _)
      · intro c hc
        rw [List.map_cons] at hc
        rcases List.mem_cons.mp hc with rfl | hc2
        · exact hin
        · intro hcs
          exact ihs c hc2 (List.mem_cons_of_mem _ hcs)

theorem filter_keys_nodup (p : DocRec → Bool) (l : List DocRec)
    (h : (l.map (·.profile_url)).Nodup) :
    ((l.filter p).map (·.profile_url)).Nodup :=
  h.sublist (List.Sublist.map _ (List.filter_sublist l))

theorem mem_drop_missing_critical {l : List DocRec} {r : DocRec} :
    r ∈ drop_missing_critical l ↔
      r ∈ l ∧ r.hospital ≠ Cell.na ∧ r.location ≠ Cell.na ∧ r.specialty ≠ Cell.na := by
  unfold drop_missing_critical
  simp only [List.mem_filter, decide_eq_true_eq]
  tauto

/-- Claim C3: after the validation/deduplication stage at the end of the
pipeline, profile keys are pairwise distinct and every retained record has
non-missing hospital, location and specialty; name and qualifications are
not constrained, as the final conjunct shows on a record with both
missing. -/
theorem cleaning_invariant (flag : Bool) (l : List DocRec) :
    ((run_full_cleaning flag l).map (·.profile_url)).Nodup ∧
    (∀ r ∈ run_full_cleaning flag l,
      r.hospital ≠ Cell.na ∧ r.location ≠ Cell.na ∧ r.specialty ≠ Cell.na) ∧
    run_full_cleaning false
      [⟨Cell.str ("u1".toList), Cell.na, Cell.na, Cell.str ("Healer".toList),
        Cell.na, Cell.str ("City Clinic".toList), Cell.str ("Gulshan".toList),
        Cell.na, Cell.na⟩] =
      [⟨Cell.str ("u1".toList), Cell.na, Cell.na, Cell.str ("Healer".toList),
        Cell.num 1, Cell.str ("City Clinic".toList), Cell.str ("Gulshan".toList),
        Cell.na, Cell.na⟩] := by
  refine ⟨?_, ?_, by decide⟩
  · unfold run_full_cleaning
    apply filter_keys_nodup
    apply filter_keys_nodup
    apply filter_keys_nodup
    exact (dedupByKey_keys_nodup _ []).1
  · intro r hr
    unfold run_full_cleaning at hr
    exact (mem_drop_missing_critical.mp hr).2

/-- Claim C6: the repeated-value filter keeps exactly the records whose
non-missing values (designation excluded) are pairwise distinct; a record
whose hospital and location coincide is dropped, and one with pairwise
distinct values is kept. -/
theorem remove_repeated_values_spec :
    (∀ (l : List DocRec) (r : DocRec),
      r ∈ remove_repeated_values l ↔ r ∈ l ∧ (nonNAVals r).Nodup) ∧
    remove_repeated_values
      [⟨Cell.str ("u2".toList), Cell.str ("Dr. B".toList), Cell.na,
        Cell.str ("Dentist".toList), Cell.na, Cell.str ("Same Line".toList),
        Cell.str ("Same Line".toList), Cell.na, Cell.na⟩] = [] ∧
    remove_repeated_values
      [⟨Cell.str ("u3".toList), Cell.str ("Dr. C".toList), Cell.str ("MBBS".toList),
        Cell.str ("Dentist".toList), Cell.str ("5 Years".toList),
        Cell.str ("City Clinic".toList), Cell.str ("Gulshan".toList),
        Cell.na, Cell.na⟩] =
      [⟨Cell.str ("u3".toList), Cell.str ("Dr. C".toList), Cell.str ("MBBS".toList),
        Cell.str ("Dentist".toList), Cell.str ("5 Years".toList),
        Cell.str ("City Clinic".toList), Cell.str ("Gulshan".toList),
        Cell.na, Cell.na⟩] := by
  refine ⟨?_, by decide, by decide⟩
  intro l r
  unfold remove_repeated_values has_repeated_values
  rw [List.mem_filter]
  constructor
  · rintro ⟨h1, h2⟩
    refine ⟨h1, ?_⟩
    simp only [Bool.not_eq_eq_eq_not, Bool.not_true, decide_eq_false_iff_not, not_not] at h2
    have hsub := List.dedup_sublist (nonNAVals r)
    have := List.Sublist.eq_of_length hsub (h2.symm)
    rw [← this]
    exact List.nodup_dedup _
  · rintro ⟨h1, h2⟩
    refine ⟨h1, ?_⟩
    simp only [Bool.not_eq_eq_eq_not, Bool.not_true, decide_eq_false_iff_not, not_not]
    rw [List.dedup_eq_self.mpr h2]

theorem dedupByKey_unique_mem :
    ∀ (l : List DocRec) (seen : List Cell) (r : DocRec),
      r ∈ l → r.profile_url ∉ seen →
      (l.filter (fun q => q.profile_url == r.profile_url)).length = 1 →
      r ∈ dedupByKey seen l := by
  intro l
  induction l with
  | nil => intro seen r hr; simp at hr
  | cons a as ih =>
    intro seen r hr hnin hcount
    unfold dedupByKey
    by_cases hin : a.profile_url ∈ seen
    · rw [if_pos hin]
      have hne : a.profile_url ≠ r.profile_url := by
        intro he
        rw [he] at hin
        exact hnin hin
      have hras : r ∈ as := by
        rcases List.mem_cons.mp hr with rfl | h
        · exact absurd rfl hne
        · exact h
      apply ih seen r hras hnin
      rw [List.filter_cons] at hcount
      rw [if_neg (by simp [hne])] at hcount
      exact hcount
    · rw [if_neg hin]
      rcases List.mem_cons.mp hr with rfl | hras
      · exact List.mem_cons_self _ _
      · have hne : a.profile_url ≠ r.profile_url := by
          intro he
          rw [List.filter_cons, if_pos (by simp [he])] at hcount
          have : r ∈ as.filter (fun q => q.profile_url == r.profile_url) :=
            List.mem_filter.mpr ⟨hras, by simp⟩
          have hpos : 0 < (as.filter (fun q => q.profile_url == r.profile_url)).length :=
            List.length_pos.mpr (by intro he2; rw [he2] at this; simp at this)
          simp only [List.length_cons] at hcount
          omega
        apply List.mem_cons_of_mem
        apply ih (a.profile_url :: seen) r hras
        · intro hmem
          rcases List.mem_cons.mp hmem with he | he
          · exact hne he.symm
          · exact hnin he
        · rw [List.filter_cons, if_neg (by simp [hne])] at hcount
          exact hcount

theorem dedupByKey_enum_aux (l : List DocRec) :
    ∀ (rest pre : List DocRec) (seen : List Cell),
      l = pre ++ rest →
      (∀ c, c ∈ seen ↔ c ∈ pre.map (·.profile_url)) →
      dedupByKey seen rest =
        ((List.enumFrom pre.length rest).filter
          (fun p => (l.take p.1).all
            (fun q => !(q.profile_url == p.2.profile_url)))).map Prod.snd := by
  intro rest
  induction rest with
  | nil =>
    intro pre seen hl hseen
    simp [dedupByKey, List.enumFrom]
  | cons r rs ih =>
    intro pre seen hl hseen
    have htake : l.take pre.length = pre := by
      rw [hl]
      exact List.take_left pre (r :: rs)
    have hcond : ((l.take pre.length).all
        (fun q => !(q.profile_url == r.profile_url)) = true) ↔
        r.profile_url ∉ seen := by
      rw [htake, List.all_eq_true]
      constructor
      · intro hall hmem
        obtain ⟨q, hq, hqe⟩ := List.mem_map.mp ((hseen _).mp hmem)
        have := hall q hq
        simp only [Bool.not_eq_eq_eq_not, Bool.not_true, beq_eq_false_iff_ne, ne_eq] at this
        exact this hqe
      · intro hnin q hq
        simp only [Bool.not_eq_eq_eq_not, Bool.not_true, beq_eq_false_iff_ne, ne_eq]
        intro he
        exact hnin ((hseen _).mpr (List.mem_map.mpr ⟨q, hq, he⟩))
    have henum : List.enumFrom pre.length (r :: rs) =
        (pre.length, r) :: List.enumFrom (pre.length + 1) rs := rfl
    have hlen : (pre ++ [r]).length = pre.length + 1 := by simp
    have hl2 : l = (pre ++ [r]) ++ rs := by rw [hl]; simp
    unfold dedupByKey
    by_cases hin : r.profile_url ∈ seen
    · rw [if_pos hin, henum, List.filter_cons]
      rw [if_neg (by simp only [hcond]; simp [hin])]
      have hseen2 : ∀ c, c ∈ seen ↔ c ∈ (pre ++ [r]).map (·.profile_url) := by
        intro c
        rw [hseen c]
        simp only [List.map_append, List.map_cons, List.map_nil, List.mem_append]
        constructor
        · exact Or.inl
        · rintro (h | h)
          · exact h
          · simp only [List.mem_singleton] at h
            rw [h]
            exact (hseen _).mp hin
      have := ih (pre ++ [r]) seen hl2 hseen2
      rw [hlen] at this
      exact this
    · rw [if_neg hin, henum, List.filter_cons]
      rw [if_pos (by simp only [hcond]; simp [hin])]
      rw [List.map_cons]
      have hseen2 : ∀ c, c ∈ r.profile_url :: seen ↔
          c ∈ (pre ++ [r]).map (·.profile_url) := by
        intro c
        simp only [List.mem_cons, hseen c, List.map_append, List.map_cons,
          List.map_nil, List.mem_append, List.mem_singleton]
        tauto
      have := ih (pre ++ [r]) (r.profile_url :: seen) hl2 hseen2
      rw [hlen] at this
      rw [this]

/-- Claim C7: key deduplication returns exactly the records whose key does
not occur earlier in the collection (the first occurrence of each
`profile_url`), and every record whose key is unique in the collection is
retained. -/
theorem remove_duplicates_spec (l : List DocRec) :
    remove_duplicates l =
      ((l.enum.filter (fun p => (l.take p.1).all
        (fun q => !(q.profile_url == p.2.profile_url)))).map Prod.snd) ∧
    ∀ r ∈ l, (l.filter (fun q => q.profile_url == r.profile_url)).length = 1 →
      r ∈ remove_duplicates l := by
  constructor
  · have := dedupByKey_enum_aux l l [] [] (by simp) (by simp)
    unfold remove_duplicates
    rw [this]
    rfl
  · intro r hr hcount
    exact dedupByKey_unique_mem l [] r hr (by simp) hcount

/-- Witness for claim C7: on a concrete two-record collection with
distinct keys, the uniqueness clause retains the first record. -/
theorem remove_duplicates_spec_witness :
    (⟨Cell.str ("a".toList), Cell.na, Cell.na, Cell.na, Cell.na, Cell.na,
      Cell.na, Cell.na, Cell.na⟩ : DocRec) ∈
      remove_duplicates
        [⟨Cell.str ("a".toList), Cell.na, Cell.na, Cell.na, Cell.na, Cell.na,
          Cell.na, Cell.na, Cell.na⟩,
         ⟨Cell.str ("b".toList), Cell.na, Cell.na, Cell.na, Cell.na, Cell.na,
          Cell.na, Cell.na, Cell.na⟩] :=
  (remove_duplicates_spec _).2 _ (by decide) (by decide)

/-! ## Lemmas about specialty canonicalization -/

theorem canonMatch_decomp {t : Str} :
    ∀ {L : List Str} {e : Str}, canonMatch t L = some e →
      ∃ L1 L2, L = L1 ++ e :: L2 ∧
        (∀ x ∈ L1, containsSub (lowerCL x) (lowerCL t) = false) ∧
        containsSub (lowerCL e) (lowerCL t) = true := by
  intro L
  induction L with
  | nil => intro e h; simp [canonMatch] at h
  | cons a as ih =>
    intro e h
    unfold canonMatch at h
    split at h
    · simp only [Option.some.injEq] at h
      subst h
      rename_i hc
      exact ⟨[], as, rfl, by simp, hc⟩
    · obtain ⟨L1, L2, heq, hL1, he⟩ := ih h
      rename_i hc
      refine ⟨a :: L1, L2, by rw [heq]; rfl, ?_, he⟩
      intro x hx
      rcases List.mem_cons.mp hx with rfl | hx2
      · exact Bool.of_not_eq_true hc
      · exact hL1 x hx2

theorem canonMatch_none_all {t : Str} :
    ∀ {L : List Str}, canonMatch t L = none →
      ∀ e ∈ L, containsSub (lowerCL e) (lowerCL t) = false := by
  intro L
  induction L with
  | nil => intro _ e he; simp at he
  | cons a as ih =>
    intro h e he
    unfold canonMatch at h
    split at h
    · simp at h
    · rcases List.mem_cons.mp he with rfl | he2
      · rename_i hc
        exact Bool.of_not_eq_true hc
      · exact ih h e he2

theorem canonMatch_append_first {u e : Str} {L1 L2 : List Str}
    (h1 : ∀ x ∈ L1, containsSub (lowerCL x) (lowerCL u) = false)
    (h2 : containsSub (lowerCL e) (lowerCL u) = true) :
    canonMatch u (L1 ++ e :: L2) = some e := by
  induction L1 with
  | nil =>
    unfold canonMatch
    rw [List.nil_append]
    simp [h2]
  | cons a as ih =>
    rw [List.cons_append]
    unfold canonMatch
    rw [if_neg]
    · exact ih (fun x hx => h1 x (List.mem_cons_of_mem a hx))
    · rw [h1 a (List.mem_cons_self a as)]
      exact Bool.false_ne_true

theorem canonMatch_self_of_match {t e : Str}
    (h : canonMatch t standard_specialties = some e) :
    canonMatch e standard_specialties = some e := by
  obtain ⟨L1, L2, heq, hL1, he⟩ := canonMatch_decomp h
  rw [heq]
  apply canonMatch_append_first
  · intro x hx
    by_contra hc
    have hx2 : containsSub (lowerCL x) (lowerCL e) = true := by
      cases hxx : containsSub (lowerCL x) (lowerCL e)
      · exact absurd hxx hc
      · rfl
    have := containsSub_trans hx2 he
    rw [hL1 x hx] at this
    exact Bool.false_ne_true this
  · exact containsSub_self _

theorem canonMatch_mem {t : Str} {L : List Str} {e : Str}
    (h : canonMatch t L = some e) : e ∈ L := by
  obtain ⟨L1, L2, heq, _, _⟩ := canonMatch_decomp h
  rw [heq]
  exact List.mem_append_right L1 (List.mem_cons_self e L2)

theorem naStr_not_standard : naStr ∉ standard_specialties := by decide

theorem clean_specialty_idem (t : Str) :
    clean_specialty (clean_specialty t) = clean_specialty t := by
  by_cases hna : t = naStr
  · subst hna
    rfl
  · have h1 : clean_specialty t = (canonMatch t standard_specialties).getD t := by
      unfold clean_specialty
      rw [if_neg hna]
    cases h : canonMatch t standard_specialties with
    | none =>
      have h2 : clean_specialty t = t := by rw [h1, h, Option.getD_none]
      rw [h2]
      exact h2
    | some e =>
      have h2 : clean_specialty t = e := by rw [h1, h, Option.getD_some]
      rw [h2]
      have hene : e ≠ naStr := by
        intro he
        rw [he] at h
        exact naStr_not_standard (canonMatch_mem h)
      unfold clean_specialty
      rw [if_neg hene, canonMatch_self_of_match h, Option.getD_some]

/-! ## Lemmas about digit runs and decimal printing -/

theorem parse_append_digit (a : Str) (c : Char) :
    parseNatCL (a ++ [c]) = parseNatCL a * 10 + (c.toNat - 48) := by
  unfold parseNatCL
  rw [List.foldl_append]
  rfl

theorem digitChar_toNat : ∀ m : Nat, m < 10 → (Char.ofNat (48 + m)).toNat = 48 + m := by
  intro m hm
  interval_cases m <;> decide

theorem digitChar_isDigit : ∀ m : Nat, m < 10 → (Char.ofNat (48 + m)).isDigit = true := by
  intro m hm
  interval_cases m <;> decide

theorem natDigits_ne_nil (n : Nat) : natDigits n ≠ [] := by
  unfold natDigits
  by_cases h : n < 10
  · rw [dif_pos h]
    simp
  · rw [dif_neg h]
    simp

theorem natDigits_all_digits (n : Nat) : ∀ c ∈ natDigits n, c.isDigit = true := by
  induction n using Nat.strong_induction_on with
  | _ n ih =>
    intro c hc
    unfold natDigits at hc
    by_cases h : n < 10
    · rw [dif_pos h] at hc
      simp only [List.mem_singleton] at hc
      rw [hc]
      exact digitChar_isDigit n h
    · rw [dif_neg h] at hc
      rcases List.mem_append.mp hc with h1 | h2
      · exact ih (n / 10) (Nat.div_lt_self (by omega) (by omega)) c h1
      · simp only [List.mem_singleton] at h2
        rw [h2]
        exact digitChar_isDigit (n % 10) (Nat.mod_lt n (by omega))

theorem parse_natDigits (n : Nat) : parseNatCL (natDigits n) = n := by
  induction n using Nat.strong_induction_on with
  | _ n ih =>
    unfold natDigits
    by_cases h : n < 10
    · rw [dif_pos h]
      show parseNatCL ([] ++ [Char.ofNat (48 + n)]) = n
      rw [parse_append_digit, digitChar_toNat n h]
      simp [parseNatCL]
    · rw [dif_neg h]
      rw [parse_append_digit, ih (n / 10) (Nat.div_lt_self (by omega) (by omega)),
        digitChar_toNat (n % 10) (Nat.mod_lt n (by omega))]
      omega

theorem dropWhile_append_all {q : Char → Bool} :
    ∀ {pre : Str} (x : Str), (∀ c ∈ pre, q c = true) →
      (pre ++ x).dropWhile q = x.dropWhile q := by
  intro pre
  induction pre with
  | nil => intro x _; rfl
  | cons a as ih =>
    intro x hall
    rw [List.cons_append,
      List.dropWhile_cons_of_pos (hall a (List.mem_cons_self a as))]
    exact ih x (fun c hc => hall c (List.mem_cons_of_mem a hc))

theorem takeWhile_append_all {q : Char → Bool} :
    ∀ {run : Str} (post : Str), (∀ c ∈ run, q c = true) →
      (run ++ post).takeWhile q = run ++ post.takeWhile q := by
  intro run
  induction run with
  | nil => intro post _; rfl
  | cons a as ih =>
    intro post hall
    rw [List.cons_append,
      List.takeWhile_cons_of_pos (hall a (List.mem_cons_self a as)), ih post
      (fun c hc => hall c (List.mem_cons_of_mem a hc))]
    rfl

theorem takeWhile_nil_of_head {q : Char → Bool} {x : Str}
    (h : ∀ c, x.head? = some c → q c = false) : x.takeWhile q = [] := by
  cases x with
  | nil => rfl
  | cons a as => exact List.takeWhile_cons_of_neg (by simp [h a rfl])

theorem firstDigitRun_decomp {pre run post : Str}
    (hpre : ∀ c ∈ pre, c.isDigit = false) (hrun : run ≠ [])
    (hdig : ∀ c ∈ run, c.isDigit = true)
    (hpost : ∀ c, post.head? = some c → c.isDigit = false) :
    firstDigitRun (pre ++ run ++ post) = run := by
  unfold firstDigitRun
  rw [List.append_assoc, dropWhile_append_all (run ++ post)
    (by intro c hc; simp [hpre c hc])]
  have hstop : (run ++ post).dropWhile (fun c => !c.isDigit) = run ++ post := by
    cases run with
    | nil => exact absurd rfl hrun
    | cons a as =>
      rw [List.cons_append]
      exact List.dropWhile_cons_of_neg
        (by simp [hdig a (List.mem_cons_self a as)])
  rw [hstop, takeWhile_append_all post hdig, takeWhile_nil_of_head hpost,
    List.append_nil]

theorem firstDigitRun_ne_nil :
    ∀ {s : Str}, (∃ c ∈ s, c.isDigit = true) → firstDigitRun s ≠ [] := by
  intro s
  induction s with
  | nil => rintro ⟨c, hc, _⟩; simp at hc
  | cons a as ih =>
    rintro ⟨c, hc, hdig⟩
    unfold firstDigitRun
    by_cases ha : a.isDigit
    · rw [List.dropWhile_cons_of_neg (by simp [ha]),
        List.takeWhile_cons_of_pos ha]
      simp
    · rw [List.dropWhile_cons_of_pos (by simp [ha])]
      have : c ∈ as := by
        rcases List.mem_cons.mp hc with rfl | h2
        · exact absurd hdig ha
        · exact h2
      exact ih ⟨c, this, hdig⟩

theorem firstDigitRun_nil_of_no_digit {s : Str}
    (h : ∀ c ∈ s, c.isDigit = false) : firstDigitRun s = [] := by
  unfold firstDigitRun
  have : s.dropWhile (fun c => !c.isDigit) = [] := by
    rw [List.dropWhile_eq_nil_iff]
    intro c hc
    simp [h c hc]
  rw [this]
  rfl

/-! ## Behaviour of the experience conversion -/

theorem cleanExpCell_num (n : Nat) : cleanExpCell (Cell.num n) = Cell.num n := by
  have hrun : firstDigitRun (expCellStr (Cell.num n)) = natDigits n := by
    show firstDigitRun (natDigits n ++ ".0".toList) = natDigits n
    have := @firstDigitRun_decomp [] (natDigits n) (".0".toList)
      (by intro c hc; simp at hc) (natDigits_ne_nil n)
      (natDigits_all_digits n) (by intro c hc; simp at hc; rw [← hc]; decide)
    simpa using this
  unfold cleanExpCell
  rw [hrun, if_neg (natDigits_ne_nil n), parse_natDigits]

theorem cleanExpCell_str_digit {s : Str} (h : ∃ c ∈ s, c.isDigit = true) :
    cleanExpCell (Cell.str s) = Cell.num (parseNatCL (firstDigitRun s)) := by
  unfold cleanExpCell
  simp only [expCellStr]
  rw [if_neg (firstDigitRun_ne_nil h)]

theorem cleanExpCell_str_no_digit {s : Str} (h : ∀ c ∈ s, c.isDigit = false) :
    cleanExpCell (Cell.str s) = Cell.na := by
  unfold cleanExpCell
  simp only [expCellStr]
  rw [if_pos (firstDigitRun_nil_of_no_digit h)]

theorem cleanExpCell_idem_of_digit :
    ∀ c : Cell, (match c with
      | Cell.str s => ∃ d ∈ s, d.isDigit = true
      | _ => True) →
      cleanExpCell (cleanExpCell c) = cleanExpCell c := by
  intro c hc
  match c with
  | Cell.na =>
    have h1 : cleanExpCell Cell.na = Cell.num 1 := by decide
    rw [h1, cleanExpCell_num]
  | Cell.num n =>
    rw [cleanExpCell_num, cleanExpCell_num]
  | Cell.str s =>
    rw [cleanExpCell_str_digit hc, cleanExpCell_num]

/-- Counterexample to claim C4: a non-missing experience text without any
digit is converted to the missing value, not to the claimed default 1. -/
theorem clean_experience_no_digit_counterexample :
    cleanExpCell (Cell.str ("many years".toList)) ≠ Cell.num 1 ∧
    cleanExpCell (Cell.str ("many years".toList)) = Cell.na := by
  constructor <;> decide

/-- Claim C4 (amended): experience conversion takes the first maximal run
of decimal digits; a missing value defaults to 1; a non-missing text with
no digit becomes missing rather than 1; the three concrete examples of the
specification evaluate as stated. -/
theorem clean_experience_spec :
    cleanExpCell Cell.na = Cell.num 1 ∧
    (∀ s : Str, (∀ c ∈ s, c.isDigit = false) → cleanExpCell (Cell.str s) = Cell.na) ∧
    (∀ pre run post : Str,
      (∀ c ∈ pre, c.isDigit = false) → run ≠ [] → (∀ c ∈ run, c.isDigit = true) →
      (∀ c, post.head? = some c → c.isDigit = false) →
      cleanExpCell (Cell.str (pre ++ run ++ post)) = Cell.num (parseNatCL run)) ∧
    cleanExpCell (Cell.str ("12 Years of Experience Overall".toList)) = Cell.num 12 ∧
    cleanExpCell (Cell.str ("Over 5 yrs".toList)) = Cell.num 5 := by
  refine ⟨by decide, ?_, ?_, by decide, by decide⟩
  · intro s h
    exact cleanExpCell_str_no_digit h
  · intro pre run post hpre hrun hdig hpost
    have hex : ∃ c ∈ pre ++ run ++ post, c.isDigit = true := by
      obtain ⟨d, ds, rfl⟩ : ∃ d ds, run = d :: ds := by
        cases run with
        | nil => exact absurd rfl hrun
        | cons d ds => exact ⟨d, ds, rfl⟩
      exact ⟨d, by simp, hdig d (List.mem_cons_self d ds)⟩
    rw [cleanExpCell_str_digit hex, firstDigitRun_decomp hpre hrun hdig hpost]

/-- Witness for claim C4 (amended): the digit-run clause applied at the
concrete decomposition of "Over 5 yrs". -/
theorem clean_experience_spec_witness :
    cleanExpCell (Cell.str ("Over ".toList ++ "5".toList ++ " yrs".toList)) =
      Cell.num (parseNatCL ("5".toList)) :=
  clean_experience_spec.2.2.1 ("Over ".toList) ("5".toList) (" yrs".toList)
    (by decide) (by decide) (by decide) (by decide)

/-- Claim C10: for any input text, specialty canonicalization never
returns a vocabulary entry that is preceded, at its first occurrence in
the list, by an entry whose lowercase form is a substring of its own
lowercase form - any text matching the later entry already matches the
earlier one, which wins by list order. -/
theorem clean_specialty_no_shadowed (t : Str) (i j : Nat)
    (hi : i < standard_specialties.length) (hj : j < standard_specialties.length)
    (hij : i < j)
    (hfirst : standard_specialties.get ⟨j, hj⟩ ∉ standard_specialties.take j)
    (hsub : containsSub (lowerCL (standard_specialties.get ⟨i, hi⟩))
      (lowerCL (standard_specialties.get ⟨j, hj⟩)) = true) :
    clean_specialty t ≠ standard_specialties.get ⟨j, hj⟩ := by
  intro heq
  have hjmem : standard_specialties.get ⟨j, hj⟩ ∈ standard_specialties :=
    List.get_mem _ _ _
  by_cases hna : t = naStr
  · rw [hna] at heq
    unfold clean_specialty at heq
    rw [if_pos rfl] at heq
    exact naStr_not_standard (heq ▸ hjmem)
  · have h1 : clean_specialty t = (canonMatch t standard_specialties).getD t := by
      unfold clean_specialty
      rw [if_neg hna]
    cases h : canonMatch t standard_specialties with
    | none =>
      rw [h1, h, Option.getD_none] at heq
      have hmatch := canonMatch_none_all h (standard_specialties.get ⟨i, hi⟩)
        (List.get_mem _ _ _)
      rw [← heq] at hsub
      have := containsSub_trans hsub (containsSub_self (lowerCL t))
      rw [hmatch] at this
      exact Bool.false_ne_true this
    | some e =>
      rw [h1, h, Option.getD_some] at heq
      obtain ⟨L1, L2, hdec, hL1, he⟩ := canonMatch_decomp h
      have hjlen : j ≤ L1.length := by
        by_contra hlt
        push_neg at hlt
        apply hfirst
        rw [← heq]
        rw [hdec, List.take_append_eq_append_take,
          List.take_of_length_le (by omega)]
        have hk : j - L1.length = (j - L1.length - 1) + 1 := by omega
        rw [hk, List.take_succ_cons]
        exact List.mem_append_right _ (List.mem_cons_self _ _)
      have hiL1 : i < L1.length := by omega
      have hEi : standard_specialties.get ⟨i, hi⟩ ∈ L1 := by
        have hq : standard_specialties.get? i =
            some (standard_specialties.get ⟨i, hi⟩) := List.get?_eq_get hi
        generalize hgen : standard_specialties.get ⟨i, hi⟩ = Ei at hq ⊢
        rw [hdec, List.get?_append hiL1] at hq
        exact List.get?_mem hq
      have hfalse := hL1 _ hEi
      rw [heq] at he
      have := containsSub_trans hsub he
      rw [hfalse] at this
      exact Bool.false_ne_true this

/-- Witness for claim C10: the canonicalizer can never output
"Interventional Cardiologist", because "Cardiologist" precedes it in the
vocabulary and is a lowercase substring of it. -/
theorem clean_specialty_no_shadowed_witness :
    clean_specialty ("Interventional Cardiologist".toList) ≠
      "Interventional Cardiologist".toList := by
  have h := clean_specialty_no_shadowed ("Interventional Cardiologist".toList)
    6 37 (by decide) (by decide) (by decide) (by decide) (by decide)
  have hget : standard_specialties.get ⟨37, by decide⟩ =
      "Interventional Cardiologist".toList := by decide
  rw [hget] at h
  exact h

/-! ## Normalization scenarios and idempotence -/

/-- Claim C9: the raw record with specialty "Senior Consultant
Cardiologist" and location "Dhanmondi, Dhaka, Bangladesh" normalizes to
specialty "Cardiologist" and country "Bangladesh", and a location matching
no country entry leaves the country absent. -/
theorem normalize_scenario :
    (normalizeRecord
      ⟨Cell.str ("u9".toList), Cell.str ("Dr. X".toList), Cell.na,
        Cell.str ("Senior Consultant Cardiologist".toList), Cell.na,
        Cell.str ("Ibn Sina Hospital".toList),
        Cell.str ("Dhanmondi, Dhaka, Bangladesh".toList),
        Cell.na, Cell.na⟩).specialty = Cell.str ("Cardiologist".toList) ∧
    (normalizeRecord
      ⟨Cell.str ("u9".toList), Cell.str ("Dr. X".toList), Cell.na,
        Cell.str ("Senior Consultant Cardiologist".toList), Cell.na,
        Cell.str ("Ibn Sina Hospital".toList),
        Cell.str ("Dhanmondi, Dhaka, Bangladesh".toList),
        Cell.na, Cell.na⟩).country = Cell.str ("Bangladesh".toList) ∧
    (∀ loc : Str,
      (∀ c ∈ country_names, containsSub (lowerCL c) (lowerCL loc) = false) →
      countryCell (Cell.str loc) = Cell.na) := by
  refine ⟨by decide, by decide, ?_⟩
  intro loc h
  have hf : find_country loc = none := by
    unfold find_country
    exact List.find?_eq_none.mpr (by intro c hc; simp [h c hc])
  show (match find_country loc with
    | some c => Cell.str c
    | none => Cell.na) = Cell.na
  rw [hf]

/-- Witness for claim C9: the no-country clause at a concrete location. -/
theorem normalize_scenario_witness :
    countryCell (Cell.str ("Atlantis".toList)) = Cell.na :=
  normalize_scenario.2.2 ("Atlantis".toList) (by decide)

/-- Counterexample to claim C2: normalization is not idempotent - a
digitless non-missing experience text becomes missing on the first pass
and the default 1 on the second - and a specialty already equal to the
canonical entry "Interventional Cardiologist" is not returned unchanged. -/
theorem normalize_not_idem_counterexample :
    normalizeRecord (normalizeRecord
      ⟨Cell.str ("u0".toList), Cell.na, Cell.na, Cell.na,
        Cell.str ("many years".toList), Cell.na, Cell.na, Cell.na, Cell.na⟩) ≠
      normalizeRecord
        ⟨Cell.str ("u0".toList), Cell.na, Cell.na, Cell.na,
          Cell.str ("many years".toList), Cell.na, Cell.na, Cell.na, Cell.na⟩ ∧
    ("Interventional Cardiologist".toList ∈ standard_specialties) ∧
    clean_specialty ("Interventional Cardiologist".toList) =
      "Cardiologist".toList := by
  refine ⟨by decide, by decide, by decide⟩

/-- Claim C2 (amended): normalization is idempotent on every record whose
experience text contains a digit (or is missing or already numeric) and
whose qualifications, after one boilerplate strip, contain no further
occurrence of the boilerplate; specialty canonicalization and country
derivation are unconditionally idempotent, and a defaulted experience of 1
stays 1 on re-normalization. -/
theorem normalize_idem_spec :
    (∀ r : DocRec,
      (match r.experience with
        | Cell.str s => ∃ d ∈ s, d.isDigit = true
        | _ => True) →
      (match r.qualifications with
        | Cell.str q => containsSub boiler (stripBoiler q) = false
        | _ => True) →
      normalizeRecord (normalizeRecord r) = normalizeRecord r) ∧
    (∀ t : Str, clean_specialty (clean_specialty t) = clean_specialty t) ∧
    clean_specialty ("Cardiologist".toList) = "Cardiologist".toList ∧
    cleanExpCell (cleanExpCell Cell.na) = cleanExpCell Cell.na ∧
    cleanExpCell (Cell.num 1) = Cell.num 1 := by
  refine ⟨?_, clean_specialty_idem, by decide, ?_, cleanExpCell_num 1⟩
  swap
  · have h : cleanExpCell Cell.na = Cell.num 1 := by decide
    rw [h]
    exact cleanExpCell_num 1
  intro r hexp hqual
  cases r with
  | mk pu nm q sp ex ho lo co dg =>
    simp only [normalizeRecord]
    simp only [DocRec.mk.injEq, and_true, true_and]
    refine ⟨?_, ?_, ?_⟩
    · match q with
      | Cell.na => rfl
      | Cell.num m => rfl
      | Cell.str s =>
        have hq : containsSub boiler (stripBoiler s) = false := hqual
        show Cell.str (stripBoiler (stripBoiler s)) = Cell.str (stripBoiler s)
        rw [show stripBoiler (stripBoiler s) = stripBoiler s from
          replAll_id_of_no_occur hq]
    · match sp with
      | Cell.na => rfl
      | Cell.num m => rfl
      | Cell.str s =>
        show Cell.str (clean_specialty (clean_specialty s)) = Cell.str (clean_specialty s)
        rw [clean_specialty_idem]
    · exact cleanExpCell_idem_of_digit ex hexp

/-- Witness for claim C2 (amended): re-normalizing a concrete record with
a digit-bearing experience text and boilerplate-free qualifications
changes nothing. -/
theorem normalize_idem_spec_witness :
    normalizeRecord (normalizeRecord
      ⟨Cell.str ("u4".toList), Cell.str ("Dr. D".toList),
        Cell.str ("MBBS, FCPS".toList),
        Cell.str ("Senior Consultant Cardiologist".toList),
        Cell.str ("12 Years of Experience Overall".toList),
        Cell.str ("Square Hospital Ltd".toList),
        Cell.str ("Dhanmondi, Dhaka, Bangladesh".toList), Cell.na, Cell.na⟩) =
      normalizeRecord
        ⟨Cell.str ("u4".toList), Cell.str ("Dr. D".toList),
          Cell.str ("MBBS, FCPS".toList),
          Cell.str ("Senior Consultant Cardiologist".toList),
          Cell.str ("12 Years of Experience Overall".toList),
          Cell.str ("Square Hospital Ltd".toList),
          Cell.str ("Dhanmondi, Dhaka, Bangladesh".toList), Cell.na, Cell.na⟩ :=
  normalize_idem_spec.1 _ (by decide)
    (by
      have hs : stripBoiler ("MBBS, FCPS".toList) = "MBBS, FCPS".toList :=
        replAll_id_of_no_occur (by decide)
      show containsSub boiler (stripBoiler ("MBBS, FCPS".toList)) = false
      rw [hs]
      decide)

/-! ## Pipeline stage order -/

/-- Modelled from the specification wording of the orchestrator: all four
normalization passes first over the collection, the optional country
filter next, then the validator/deduplicator passes (invalid-credential,
repeated-value, key deduplication, completeness) last, in the order the
specification lists them. -/
def run_spec_order (flag : Bool) (l : List DocRec) : List DocRec :=
  let n := extract_country (standardize_specialties
    (clean_experience (clean_qualifications l)))
  let f := if flag then filter_countries ["Bangladesh".toList, "India".toList] n else n
  drop_missing_critical (remove_duplicates
    (remove_repeated_values (remove_bmdc_profiles f)))

/-- Counterexample to claim C5: the orchestrator runs the repeated-value
validator pass before normalization, so a record whose raw specialty
"Interventional Cardiologist" collapses to its name "Cardiologist" only
after canonicalization survives the code pipeline, while a pipeline that
normalizes first (as the claim states) drops it. -/
theorem pipeline_order_counterexample :
    run_full_cleaning false
      [⟨Cell.str ("u5".toList), Cell.str ("Cardiologist".toList), Cell.na,
        Cell.str ("Interventional Cardiologist".toList), Cell.na,
        Cell.str ("Popular Hospital".toList),
        Cell.str ("Dhaka, Bangladesh".toList), Cell.na, Cell.na⟩] ≠
    run_spec_order false
      [⟨Cell.str ("u5".toList), Cell.str ("Cardiologist".toList), Cell.na,
        Cell.str ("Interventional Cardiologist".toList), Cell.na,
        Cell.str ("Popular Hospital".toList),
        Cell.str ("Dhaka, Bangladesh".toList), Cell.na, Cell.na⟩] ∧
    run_spec_order false
      [⟨Cell.str ("u5".toList), Cell.str ("Cardiologist".toList), Cell.na,
        Cell.str ("Interventional Cardiologist".toList), Cell.na,
        Cell.str ("Popular Hospital".toList),
        Cell.str ("Dhaka, Bangladesh".toList), Cell.na, Cell.na⟩] = [] := by
  constructor <;> decide

/-- Claim C5 (amended): the orchestrator applies the invalid-credential
and repeated-value validator passes first, then all four normalization
passes - which fuse into a single per-record normalization map - then the
optional country filter, then key deduplication and the completeness
filter. -/
theorem run_full_cleaning_stages (flag : Bool) (l : List DocRec) :
    run_full_cleaning flag l =
      drop_missing_critical (remove_duplicates
        ((if flag then filter_countries ["Bangladesh".toList, "India".toList]
          else id)
          ((remove_repeated_values (remove_bmdc_profiles l)).map normalizeRecord))) := by
  have hmaps : ∀ m : List DocRec,
      extract_country (standardize_specialties
        (clean_experience (clean_qualifications m))) = m.map normalizeRecord := by
    intro m
    unfold extract_country standardize_specialties clean_experience clean_qualifications
    rw [List.map_map, List.map_map, List.map_map]
    try rfl
  unfold run_full_cleaning
  cases flag
  all_goals simp only [Bool.false_eq_true, if_false, if_true, id]
  all_goals rw [hmaps]

/-! ## Hospital and location scenario -/

/-- Claim C8: in any line sequence whose earlier lines contain no
acceptable hospital candidate, the consecutive lines "Square Hospital
Ltd", "Get Direction", "123 Panthapath Road, Dhaka" yield hospital
"Square Hospital Ltd" and location "123 Panthapath Road, Dhaka": the scan
stops at the first accepted hospital line, skips the excluded "Get
Direction" line, and takes the next valid line of the four-line window. -/
theorem hospital_location_scenario (pre post : List Str)
    (hpre : ∀ l ∈ pre, hospCand l = false) :
    extract_hospital_location
      (pre ++ "Square Hospital Ltd".toList :: "Get Direction".toList ::
        "123 Panthapath Road, Dhaka".toList :: post) =
      ("Square Hospital Ltd".toList, "123 Panthapath Road, Dhaka".toList) := by
  induction pre with
  | nil =>
    rw [List.nil_append]
    unfold extract_hospital_location
    rw [if_pos (by decide)]
    have htake : ("Get Direction".toList :: "123 Panthapath Road, Dhaka".toList ::
        post).take 4 = "Get Direction".toList ::
          "123 Panthapath Road, Dhaka".toList :: post.take 2 := rfl
    rw [htake, List.find?_cons_of_neg _ (by decide),
      List.find?_cons_of_pos _ (by decide)]
    rfl
  | cons a as ih =>
    rw [List.cons_append]
    unfold extract_hospital_location
    rw [if_neg (by rw [hpre a (List.mem_cons_self a as)]; exact Bool.false_ne_true)]
    exact ih (fun l hl => hpre l (List.mem_cons_of_mem a hl))

/-- Witness for claim C8: the scenario on a concrete page whose opening
line is not a hospital candidate. -/
theorem hospital_location_scenario_witness :
    extract_hospital_location
      ["Dr. Rahim".toList, "Square Hospital Ltd".toList, "Get Direction".toList,
        "123 Panthapath Road, Dhaka".toList] =
      ("Square Hospital Ltd".toList, "123 Panthapath Road, Dhaka".toList) :=
  hospital_location_scenario ["Dr. Rahim".toList] [] (by decide)
